import Mathlib

/-
Verification of the segment read path (src/src/core/reader.rs).

The Rust source is shallowly embedded: byte slices and id vectors become
List Nat, u32 document ids become Nat (no arithmetic in the source can
overflow a u32 counter modelled this way, since ids are only compared and
copied), fallible operations return Except or Option, and Rust panics
(unwrap, out-of-bounds slicing) are modelled as Except.error values whose
message records the panic.  External collaborators that are not part of
src/ (the SIMD postings decoder, the binary Vec<u32> deserializer, the fst
term dictionary, SegmentInfo parsing, the store and fast-field readers and
the IntersectionPostings merge) are modelled from the spec; each such
definition carries a doc comment saying so.
-/

/-- Term: immutable byte-string key; term.as_slice() is the byte list itself. -/
abbrev Term := List Nat

/-- TermInfo record from core::postings: offset into the postings region and
the exact count of ids of that term's list. -/
structure TermInfo where
  postings_offset : Nat
  doc_freq : Nat
deriving DecidableEq, Repr

/-- SegmentInfo metadata record (at minimum max_doc). -/
structure SegmentInfo where
  max_doc : Nat
deriving DecidableEq, Repr

/-- SegmentPostings from reader.rs: a decoded id vector plus a read position. -/
structure SegmentPostings where
  doc_id : Nat
  doc_ids : List Nat
deriving DecidableEq, Repr

namespace SegmentPostings

/-- SegmentPostings::empty: a zero-length cursor. -/
def empty : SegmentPostings :=
  { doc_id := 0, doc_ids := [] }

/-- Iterator::next for SegmentPostings: returns doc_ids[doc_id] and advances
the position, or None when the position has reached the end. -/
def next (p : SegmentPostings) : Option Nat × SegmentPostings :=
  if h : p.doc_id < p.doc_ids.length then
    (some (p.doc_ids.get ⟨p.doc_id, h⟩), { doc_id := p.doc_id + 1, doc_ids := p.doc_ids })
  else
    (none, p)

/-- The ids the cursor has not yet produced (its remaining suffix). -/
def rest (p : SegmentPostings) : List Nat :=
  p.doc_ids.drop p.doc_id

/-- The loop body of SegmentPostings::skip_next, with an explicit iteration
bound.  The bound is always called with more fuel than remaining elements
(see skip_next), so the fuel-exhausted branch is unreachable. -/
def skipNextAux : Nat → SegmentPostings → Nat → Option Nat × SegmentPostings
  | 0, p, _ => (none, p)
  | fuel + 1, p, target =>
    match p.next with
    | (none, q) => (none, q)
    | (some val, q) => if target ≤ val then (some val, q) else skipNextAux fuel q target

/-- SegmentPostings::skip_next: repeatedly advances via next, discarding
ids below the target, until returning the first id at or above the target,
or None at end of sequence. -/
def skip_next (p : SegmentPostings) (target : Nat) : Option Nat × SegmentPostings :=
  skipNextAux (p.doc_ids.length - p.doc_id + 1) p target

/-- Results of a sequence of skip_next calls on one cursor, in order; calls
that return None contribute nothing. -/
def skipResults (p : SegmentPostings) : List Nat → List Nat
  | [] => []
  | t :: ts =>
    match p.skip_next t with
    | (some v, q) => v :: skipResults q ts
    | (none, q) => skipResults q ts

end SegmentPostings

/-- Modelled from the spec: one little-endian u32 read from a byte stream,
returning the value and the remaining bytes, or none when fewer than four
bytes remain. -/
def readU32 : List Nat → Option (Nat × List Nat)
  | b0 :: b1 :: b2 :: b3 :: bs => some (b0 + 256 * (b1 + 256 * (b2 + 256 * b3)), bs)
  | _ => none

/-- Modelled from the spec: reads n consecutive u32 values. -/
def readU32List : Nat → List Nat → Option (List Nat × List Nat)
  | 0, bs => some ([], bs)
  | n + 1, bs =>
    match readU32 bs with
    | none => none
    | some (v, bs') =>
      match readU32List n bs' with
      | none => none
      | some (vs, bs'') => some (v :: vs, bs'')

/-- Modelled from the spec: BinarySerializable Vec<u32> deserialization (the
self-delimiting serialized array of unsigned 32-bit integers of section 6),
absent from src/.  A length-prefixed array; trailing bytes are ignored, and
truncated or malformed input fails with none. -/
def deserializeVecU32 (bytes : List Nat) : Option (List Nat) :=
  match readU32 bytes with
  | none => none
  | some (n, bs) =>
    match readU32List n bs with
    | none => none
    | some (vs, _) => some vs

/-- Modelled from the spec: the simdcompression Decoder's decode_sorted,
absent from src/.  It receives the compressed words and the scratch output
buffer, writes decoded ids into the buffer in place, and returns the actual
number of ids decoded together with the buffer contents.  Theorems take the
spec-stated properties of a decoder (count at most the buffer hint, in-place
write preserving the buffer length) as hypotheses. -/
abbrev DecoderFn := List Nat → List Nat → Nat × List Nat

/-- Message of the panic raised by the unwrap on Vec::deserialize. -/
def unwrapFailMsg : String := "panic: Vec::deserialize failed and the result was unwrapped"

/-- Message of the panic raised by slicing the postings region past its end. -/
def sliceOutOfBoundsMsg : String := "panic: slice index out of range"

/-- SegmentPostings::from_data: deserializes the compressed word array
(unwrap panics on failure, modelled as Except.error), collects the scratch
buffer (0..doc_freq), hands both to the decoder, and truncates the buffer to
the count the decoder returned. -/
def SegmentPostings.from_data (decoder : DecoderFn) (doc_freq : Nat) (data : List Nat) :
    Except String SegmentPostings :=
  match deserializeVecU32 data with
  | none => Except.error unwrapFailMsg
  | some arr =>
    let doc_ids := List.range doc_freq
    let decoded := decoder arr doc_ids
    Except.ok { doc_id := 0, doc_ids := decoded.2.take decoded.1 }

/-- Modelled from the spec: the fst-backed term dictionary, absent from
src/, as an ordered association list; lookup is a pure deterministic
function of the term bytes. -/
abbrev Dict := List (Term × TermInfo)

/-- Modelled from the spec: FstMap::get as association-list lookup. -/
def dictGet : Dict → Term → Option TermInfo
  | [], _ => none
  | (k, v) :: rest, t => if k = t then some v else dictGet rest t

/-- SegmentReader from reader.rs.  The store and fast-field readers are
opaque to every claim here and are retained as their raw bytes. -/
structure SegmentReader where
  segment_info : SegmentInfo
  segment_id : Nat
  term_infos : Dict
  postings_data : List Nat
  store_reader : List Nat
  fast_fields_reader : List Nat
deriving DecidableEq, Repr

namespace SegmentReader

/-- SegmentReader::max_doc. -/
def max_doc (r : SegmentReader) : Nat :=
  r.segment_info.max_doc

/-- SegmentReader::get_term: dictionary lookup of the term bytes. -/
def get_term (r : SegmentReader) (term : Term) : Option TermInfo :=
  dictGet r.term_infos term

/-- SegmentReader::read_postings: slices the postings region at the term's
offset and decodes.  The Rust source indexes with an unguarded
postings_data[offset..], which panics when the offset exceeds the region
length; the panic is modelled as Except.error.  The Rust function returns a
plain SegmentPostings, so every error value here models a panic, not a
recoverable error. -/
def read_postings (decoder : DecoderFn) (r : SegmentReader) (term_info : TermInfo) :
    Except String SegmentPostings :=
  let offset := term_info.postings_offset
  if offset ≤ r.postings_data.length then
    SegmentPostings.from_data decoder term_info.doc_freq (r.postings_data.drop offset)
  else
    Except.error sliceOutOfBoundsMsg

end SegmentReader

/-- Forward scan of a list-view cursor: discards elements below the target
and returns the first element at or above it with the suffix after it.  This
is the observable behaviour of SegmentPostings::skip_next on the cursor's
remaining ids (proved below). -/
def skipList (target : Nat) : List Nat → Option Nat × List Nat
  | [] => (none, [])
  | x :: xs => if target ≤ x then (some x, xs) else skipList target xs

/-- Total number of remaining ids across a list of cursors. -/
def sumLen : List (List Nat) → Nat
  | [] => 0
  | l :: ls => l.length + sumLen ls

/-- The candidate set tracked by the merge loop: ids at or above the current
candidate that lie in every pending cursor and, unless equal to the
candidate itself, in every cursor that has already confirmed it. -/
def mergeCand (c : Nat) (agreed pending : List (List Nat)) (x : Nat) : Prop :=
  c ≤ x ∧ (x = c ∨ ∀ a ∈ agreed, x ∈ a) ∧ (∀ p ∈ pending, x ∈ p)

/-- Modelled from the spec (section 4.4), IntersectionPostings being absent
from src/: one round of the N-way merge.  c is the current candidate,
already consumed from each cursor in agreed; each pending cursor is asked to
skip to the candidate.  A strictly larger answer becomes the new candidate
and the cursors that had confirmed the stale candidate re-synchronize
(they rejoin the pending side); an exhausted cursor terminates the whole
intersection; when every cursor has confirmed the candidate it is emitted.
The fuel bound exceeds the total remaining length at every call site, so
the fuel-exhausted branch is unreachable. -/
def loopStep : Nat → Nat → List (List Nat) → List (List Nat) → Option (Nat × List (List Nat))
  | 0, _, _, _ => none
  | _ + 1, c, agreed, [] => some (c, agreed)
  | fuel + 1, c, agreed, p :: ps =>
    match skipList c p with
    | (none, _) => none
    | (some v, p') =>
      if v = c then loopStep fuel c (agreed ++ [p']) ps
      else loopStep fuel v [p'] (agreed ++ ps)

/-- Modelled from the spec (section 4.4): one output of the intersection.
The candidate is seeded with the first cursor's next(); with no cursor, or
an exhausted first cursor, the intersection is over. -/
def interNext (ls : List (List Nat)) : Option (Nat × List (List Nat)) :=
  match ls with
  | [] => none
  | [] :: _ => none
  | (x :: l) :: ps => loopStep (sumLen ls + 1) x [l] ps

/-- Modelled from the spec (section 4.4): the full output sequence of the
intersection merge, pulling interNext until exhaustion.  Every emission
strictly shrinks the total remaining length, so the given fuel suffices
whenever it exceeds sumLen of the cursors. -/
def interRun : Nat → List (List Nat) → List Nat
  | 0, _ => []
  | fuel + 1, ls =>
    match interNext ls with
    | none => []
    | some (c, ls') => c :: interRun fuel ls'

/-- IntersectionPostings over segment postings cursors. -/
structure IntersectionPostings where
  postings : List SegmentPostings
deriving DecidableEq, Repr

/-- IntersectionPostings::from_postings. -/
def IntersectionPostings.from_postings (ps : List SegmentPostings) : IntersectionPostings :=
  { postings := ps }

/-- Modelled from the spec: the complete sequence of ids produced by
iterating the intersection cursor, computed on the cursors' remaining id
lists. -/
def IntersectionPostings.docs (ip : IntersectionPostings) : List Nat :=
  let views := ip.postings.map SegmentPostings.rest
  interRun (sumLen views + 1) views

namespace SegmentReader

/-- The loop body of SegmentReader::search, instrumented with the list of
terms looked up so far (second component).  On a dictionary hit the term's
postings are decoded and pushed; a panic in read_postings propagates; on the
first miss the accumulated cursors are cleared, a single empty cursor is
pushed, and the loop breaks, so no later term is looked up. -/
def searchLoop (decoder : DecoderFn) (r : SegmentReader) :
    List Term → List SegmentPostings → List Term →
    Except String (List SegmentPostings) × List Term
  | [], acc, seen => (Except.ok acc, seen)
  | t :: ts, acc, seen =>
    match r.get_term t with
    | some term_info =>
      match read_postings decoder r term_info with
      | Except.ok p => searchLoop decoder r ts (acc ++ [p]) (seen ++ [t])
      | Except.error e => (Except.error e, seen ++ [t])
    | none => (Except.ok [SegmentPostings.empty], seen ++ [t])

/-- SegmentReader::search: resolves each term and feeds the cursors to the
intersection.  A read_postings panic propagates as the error case. -/
def search (decoder : DecoderFn) (r : SegmentReader) (terms : List Term) :
    Except String IntersectionPostings :=
  (searchLoop decoder r terms [] []).1.map IntersectionPostings.from_postings

/-- The terms search actually looked up in the dictionary, in order. -/
def searchTrace (decoder : DecoderFn) (r : SegmentReader) (terms : List Term) : List Term :=
  (searchLoop decoder r terms [] []).2

/-- The ids search produces once the intersection cursor is drained. -/
def searchDocs (decoder : DecoderFn) (r : SegmentReader) (terms : List Term) :
    Except String (List Nat) :=
  (search decoder r terms).map IntersectionPostings.docs

/-- The decoded cursor of one term: dictionary lookup followed by
read_postings, none on a miss or a panic. -/
def termCursor (decoder : DecoderFn) (r : SegmentReader) (t : Term) : Option SegmentPostings :=
  match r.get_term t with
  | none => none
  | some term_info => (read_postings decoder r term_info).toOption

/-- The posting list of one term: the id list its fresh cursor iterates. -/
def postingList (decoder : DecoderFn) (r : SegmentReader) (t : Term) : Option (List Nat) :=
  (termCursor decoder r t).map SegmentPostings.doc_ids

end SegmentReader

/-- Error message: INFO region unreadable. -/
def ioInfoMsg : String := "IoError: INFO region"

/-- Error message: SegmentInfo undecodable. -/
def decodeInfoMsg : String := "DecodeError: SegmentInfo"

/-- Error message: TERMS region unreadable. -/
def ioTermsMsg : String := "IoError: TERMS region"

/-- Error message: term dictionary source undecodable. -/
def decodeTermsMsg : String := "DecodeError: term dictionary"

/-- Error message: STORE region unreadable. -/
def ioStoreMsg : String := "IoError: STORE region"

/-- Error message: POSTINGS region unreadable. -/
def ioPostingsMsg : String := "IoError: POSTINGS region"

/-- Error message: FASTFIELDS region unreadable. -/
def ioFastMsg : String := "IoError: FASTFIELDS region"

/-- Error message: fast fields undecodable. -/
def decodeFastMsg : String := "DecodeError: fast fields"

/-- A sealed segment: the five named byte regions as open_read exposes them
(none models an IoError on that region) plus the segment id. -/
structure Segment where
  info : Option (List Nat)
  terms : Option (List Nat)
  store : Option (List Nat)
  postings : Option (List Nat)
  fastfields : Option (List Nat)
  segId : Nat

/-- Modelled from the spec: the decode steps of external collaborators used
by SegmentReader::open and absent from src/ — SegmentInfo parsing
(str::from_utf8 with json::decode), FstMap::from_source, and
U32FastFieldsReader::open.  Each fails with none on malformed input.
StoreReader::new is infallible in the source and needs no entry. -/
structure Collaborators where
  parseSegmentInfo : List Nat → Option SegmentInfo
  fstMapFromSource : List Nat → Option Dict
  fastFieldsOpen : List Nat → Option (List Nat)

/-- All five regions are present and the three fallible decode steps
succeed: exactly the conditions SegmentReader::open needs. -/
def SegmentReader.openOk (c : Collaborators) (seg : Segment) : Prop :=
  (∃ ib si, seg.info = some ib ∧ c.parseSegmentInfo ib = some si) ∧
  (∃ tb d, seg.terms = some tb ∧ c.fstMapFromSource tb = some d) ∧
  seg.store.isSome = true ∧ seg.postings.isSome = true ∧
  (∃ fb fr, seg.fastfields = some fb ∧ c.fastFieldsOpen fb = some fr)

/-- SegmentReader::open: reads the five regions in source order, parses
SegmentInfo, builds the dictionary, the store reader and the fast-field
reader, and retains the POSTINGS region as raw bytes.  Any failing step
aborts with an error and no reader value exists. -/
def SegmentReader.openSegment (c : Collaborators) (seg : Segment) : Except String SegmentReader :=
  match seg.info with
  | none => Except.error ioInfoMsg
  | some infoBytes =>
    match c.parseSegmentInfo infoBytes with
    | none => Except.error decodeInfoMsg
    | some si =>
      match seg.terms with
      | none => Except.error ioTermsMsg
      | some termsBytes =>
        match c.fstMapFromSource termsBytes with
        | none => Except.error decodeTermsMsg
        | some dict =>
          match seg.store with
          | none => Except.error ioStoreMsg
          | some storeBytes =>
            match seg.postings with
            | none => Except.error ioPostingsMsg
            | some postingsBytes =>
              match seg.fastfields with
              | none => Except.error ioFastMsg
              | some fastBytes =>
                match c.fastFieldsOpen fastBytes with
                | none => Except.error decodeFastMsg
                | some ffr =>
                  Except.ok
                    { segment_info := si
                      segment_id := seg.segId
                      term_infos := dict
                      postings_data := postingsBytes
                      store_reader := storeBytes
                      fast_fields_reader := ffr }

/-- Concrete decoder used by witnesses: copies the words into the scratch
buffer, reporting how many fit and keeping the buffer length. -/
def decoderEx : DecoderFn :=
  fun arr buf => (min arr.length buf.length, arr.take buf.length ++ buf.drop arr.length)

/-- Serialized posting list [0, 2, 4]. -/
def bytesA : List Nat :=
  [3, 0, 0, 0, 0, 0, 0, 0, 2, 0, 0, 0, 4, 0, 0, 0]

/-- Serialized posting list [2, 4]. -/
def bytesB : List Nat :=
  [2, 0, 0, 0, 2, 0, 0, 0, 4, 0, 0, 0]

/-- TermInfo of the witness term [0]: offset 0, three documents. -/
def tiA : TermInfo := { postings_offset := 0, doc_freq := 3 }

/-- TermInfo of the witness term [1]: offset 16, two documents. -/
def tiB : TermInfo := { postings_offset := 16, doc_freq := 2 }

/-- Witness dictionary with two terms. -/
def dictEx : Dict := [([0], tiA), ([1], tiB)]

/-- Witness reader over the two serialized posting lists. -/
def readerEx : SegmentReader :=
  { segment_info := { max_doc := 5 }
    segment_id := 0
    term_infos := dictEx
    postings_data := bytesA ++ bytesB
    store_reader := []
    fast_fields_reader := [] }

/-- A reader identical to readerEx except for its dictionary, for the purity
witness. -/
def readerEx2 : SegmentReader :=
  { segment_info := { max_doc := 5 }
    segment_id := 1
    term_infos := []
    postings_data := bytesA ++ bytesB
    store_reader := []
    fast_fields_reader := [] }

/-- A reader whose postings region is two bytes of garbage. -/
def readerBad : SegmentReader :=
  { segment_info := { max_doc := 0 }
    segment_id := 2
    term_infos := []
    postings_data := [1, 0]
    store_reader := []
    fast_fields_reader := [] }

/-- TermInfo pointing at offset 0 of the garbage region. -/
def tiBad : TermInfo := { postings_offset := 0, doc_freq := 0 }

/-- TermInfo whose offset lies beyond every witness region. -/
def tiFar : TermInfo := { postings_offset := 99, doc_freq := 0 }

/-- A witness cursor over three ids. -/
def cursorEx : SegmentPostings := { doc_id := 0, doc_ids := [1, 3, 5] }

/-- Witness collaborators whose decode steps always succeed. -/
def collabEx : Collaborators :=
  { parseSegmentInfo := fun b => some { max_doc := b.length }
    fstMapFromSource := fun _ => some []
    fastFieldsOpen := fun b => some b }

/-- A witness segment with all five regions present. -/
def segEx : Segment :=
  { info := some []
    terms := some []
    store := some []
    postings := some [7]
    fastfields := some []
    segId := 42 }

/-- The cursor search builds for a term it found, or the empty cursor; on
the all-terms-present path this is always the found cursor. -/
def termCursorOrEmpty (decoder : DecoderFn) (r : SegmentReader) (t : Term) : SegmentPostings :=
  (SegmentReader.termCursor decoder r t).getD SegmentPostings.empty

/-- The posting list of a term, or the empty list when absent or panicking. -/
def postingListOrNil (decoder : DecoderFn) (r : SegmentReader) (t : Term) : List Nat :=
  (SegmentReader.postingList decoder r t).getD []

/-- skipList only answers at or above the target, and the answer splits the
list into discarded elements below the target, the answer, and the suffix. -/
theorem skipList_some_decomp (target : Nat) :
    ∀ (l : List Nat) (v : Nat) (l' : List Nat),
      skipList target l = (some v, l') →
      target ≤ v ∧ ∃ pre, l = pre ++ v :: l' ∧ ∀ x ∈ pre, x < target := by
  intro l
  induction l with
  | nil => intro v l' h; simp [skipList] at h
  | cons x xs ih =>
    intro v l' h
    by_cases hx : target ≤ x
    · simp only [skipList, if_pos hx, Prod.mk.injEq, Option.some.injEq] at h
      obtain ⟨rfl, rfl⟩ := h
      exact ⟨hx, [], rfl, by simp⟩
    · simp only [skipList, if_neg hx] at h
      obtain ⟨ht, pre, hpre, hlt⟩ := ih v l' h
      refine ⟨ht, x :: pre, by simp [hpre], ?_⟩
      intro y hy
      rcases List.mem_cons.mp hy with rfl | hy
      · omega
      · exact hlt y hy

/-- When skipList finds nothing, every element was below the target and the
returned suffix is empty. -/
theorem skipList_none (target : Nat) :
    ∀ (l l' : List Nat), skipList target l = (none, l') →
      (∀ x ∈ l, x < target) ∧ l' = [] := by
  intro l
  induction l with
  | nil =>
    intro l' h
    simp only [skipList, Prod.mk.injEq] at h
    exact ⟨by simp, h.2.symm⟩
  | cons x xs ih =>
    intro l' h
    by_cases hx : target ≤ x
    · simp [skipList, if_pos hx] at h
    · simp only [skipList, if_neg hx] at h
      obtain ⟨hall, rfl⟩ := ih l' h
      refine ⟨?_, rfl⟩
      intro y hy
      rcases List.mem_cons.mp hy with rfl | hy
      · omega
      · exact hall y hy

/-- The first component of skipList is the first element satisfying the
target bound. -/
theorem skipList_fst (target : Nat) :
    ∀ l : List Nat, (skipList target l).1 = l.find? (fun x => decide (target ≤ x)) := by
  intro l
  induction l with
  | nil => simp [skipList]
  | cons x xs ih =>
    by_cases hx : target ≤ x
    · simp [skipList, if_pos hx, List.find?_cons_of_pos, hx]
    · simp only [skipList, if_neg hx]
      rw [List.find?_cons_of_neg, ih]
      simpa using hx

/-- With fuel exceeding the remaining length, the skip_next loop body
behaves exactly like skipList on the cursor's remaining ids, and never
touches the underlying id vector. -/
theorem skipNextAux_sim :
    ∀ (fuel : Nat) (p : SegmentPostings) (target : Nat),
      p.doc_ids.length - p.doc_id < fuel →
      (SegmentPostings.skipNextAux fuel p target).1 = (skipList target p.rest).1 ∧
      (SegmentPostings.skipNextAux fuel p target).2.rest = (skipList target p.rest).2 ∧
      (SegmentPostings.skipNextAux fuel p target).2.doc_ids = p.doc_ids := by
  intro fuel
  induction fuel with
  | zero => intro p target h; exact absurd h (Nat.not_lt_zero _)
  | succ fuel ih =>
    intro p target hf
    by_cases h : p.doc_id < p.doc_ids.length
    · have hnext : p.next =
          (some (p.doc_ids.get ⟨p.doc_id, h⟩),
            { doc_id := p.doc_id + 1, doc_ids := p.doc_ids }) := by
        simp [SegmentPostings.next, h]
      have hrest : p.rest = p.doc_ids.get ⟨p.doc_id, h⟩ ::
          ({ doc_id := p.doc_id + 1, doc_ids := p.doc_ids } : SegmentPostings).rest := by
        show p.doc_ids.drop p.doc_id = _ :: p.doc_ids.drop (p.doc_id + 1)
        exact List.drop_eq_getElem_cons h
      by_cases hv : target ≤ p.doc_ids.get ⟨p.doc_id, h⟩
      · simp only [SegmentPostings.skipNextAux, hnext, if_pos hv]
        rw [hrest]
        simp only [skipList]
        rw [if_pos hv]
        exact ⟨rfl, rfl, trivial⟩
      · simp only [SegmentPostings.skipNextAux, hnext, if_neg hv]
        have hrec := ih { doc_id := p.doc_id + 1, doc_ids := p.doc_ids } target
          (by show p.doc_ids.length - (p.doc_id + 1) < fuel; omega)
        rw [hrest]
        simp only [skipList]
        rw [if_neg hv]
        exact ⟨hrec.1, hrec.2.1, hrec.2.2⟩
    · have hnext : p.next = (none, p) := by simp [SegmentPostings.next, h]
      have hrest : p.rest = [] := by
        simp [SegmentPostings.rest, List.drop_eq_nil_of_le (Nat.le_of_not_lt h)]
      simp [SegmentPostings.skipNextAux, hnext, hrest, skipList]

/-- skip_next behaves exactly like skipList on the remaining ids. -/
theorem skip_next_sim (p : SegmentPostings) (target : Nat) :
    (p.skip_next target).1 = (skipList target p.rest).1 ∧
    (p.skip_next target).2.rest = (skipList target p.rest).2 ∧
    (p.skip_next target).2.doc_ids = p.doc_ids :=
  skipNextAux_sim (p.doc_ids.length - p.doc_id + 1) p target (by omega)

/-- A successful skip_next splits the remaining ids into the discarded
elements (all below the target), the returned id, and the new remainder. -/
theorem skip_next_some_decomp (p : SegmentPostings) (target v : Nat) (q : SegmentPostings)
    (h : p.skip_next target = (some v, q)) :
    target ≤ v ∧ ∃ pre, p.rest = pre ++ v :: q.rest ∧ ∀ x ∈ pre, x < target := by
  obtain ⟨h1, h2, _⟩ := skip_next_sim p target
  rw [h] at h1 h2
  rcases hsk : skipList target p.rest with ⟨o, l'⟩
  rw [hsk] at h1 h2
  cases o with
  | none => simp at h1
  | some w =>
    simp only at h1 h2
    injection h1 with hvw
    subst hvw
    obtain ⟨ht, pre, hpre, hlt⟩ := skipList_some_decomp target p.rest v l' hsk
    exact ⟨ht, pre, by rw [h2]; exact hpre, hlt⟩

/-- An exhausted skip_next means every remaining id was below the target,
and the cursor ends fully consumed. -/
theorem skip_next_none_rest (p : SegmentPostings) (target : Nat) (q : SegmentPostings)
    (h : p.skip_next target = (none, q)) :
    (∀ x ∈ p.rest, x < target) ∧ q.rest = [] := by
  obtain ⟨h1, h2, _⟩ := skip_next_sim p target
  rw [h] at h1 h2
  rcases hsk : skipList target p.rest with ⟨o, l'⟩
  rw [hsk] at h1 h2
  cases o with
  | some w => simp at h1
  | none =>
    simp only at h1 h2
    obtain ⟨hall, rfl⟩ := skipList_none target p.rest l' hsk
    exact ⟨hall, h2⟩

/-- Claim C1 support is below; this block settles the cursor claims first.
Splitting a strictly increasing list at an element leaves a strictly
increasing suffix whose members all exceed that element. -/
theorem pairwise_suffix_of_append_cons {pre : List Nat} {v : Nat} {suf : List Nat}
    (h : List.Pairwise (· < ·) (pre ++ v :: suf)) :
    List.Pairwise (· < ·) suf ∧ ∀ x ∈ suf, v < x := by
  have h2 := (List.pairwise_append.mp h).2.1
  rw [List.pairwise_cons] at h2
  exact ⟨h2.2, h2.1⟩

/-- Every id a sequence of skip_next calls returns was still ahead of the
cursor when the sequence started. -/
theorem skipResults_subset :
    ∀ (ts : List Nat) (p : SegmentPostings) (x : Nat),
      x ∈ SegmentPostings.skipResults p ts → x ∈ p.rest := by
  intro ts
  induction ts with
  | nil => intro p x hx; simp [SegmentPostings.skipResults] at hx
  | cons t ts ih =>
    intro p x hx
    rw [SegmentPostings.skipResults] at hx
    rcases hsk : p.skip_next t with ⟨o, q⟩
    rw [hsk] at hx
    cases o with
    | none =>
      have hq := (skip_next_none_rest p t q hsk).2
      have := ih q x hx
      rw [hq] at this
      simp at this
    | some v =>
      obtain ⟨_, pre, hpre, _⟩ := skip_next_some_decomp p t v q hsk
      rcases List.mem_cons.mp hx with rfl | hx
      · rw [hpre]; exact List.mem_append_right _ (List.mem_cons_self _ _)
      · have := ih q x hx
        rw [hpre]
        exact List.mem_append_right _ (List.mem_cons_of_mem _ this)

/-- Claim C5: on a cursor over a strictly increasing id list, the ids
returned by any sequence of skip_next calls are strictly increasing, so no
call returns an id already returned or passed over by an earlier call.
The claim assumes non-decreasing targets; strict monotonicity of the
returned ids in fact holds for every target sequence, which implies the
claim. -/
theorem skip_next_monotone_results (p : SegmentPostings) (ts : List Nat)
    (h : List.Pairwise (· < ·) p.rest) :
    List.Pairwise (· < ·) (SegmentPostings.skipResults p ts) := by
  induction ts generalizing p with
  | nil => simp [SegmentPostings.skipResults]
  | cons t ts ih =>
    rw [SegmentPostings.skipResults]
    rcases hsk : p.skip_next t with ⟨o, q⟩
    cases o with
    | none =>
      have hq := (skip_next_none_rest p t q hsk).2
      exact ih q (by rw [hq]; exact List.Pairwise.nil)
    | some v =>
      obtain ⟨ht, pre, hpre, hlt⟩ := skip_next_some_decomp p t v q hsk
      rw [hpre] at h
      obtain ⟨hsuf, habove⟩ := pairwise_suffix_of_append_cons h
      refine List.pairwise_cons.mpr ⟨?_, ih q hsuf⟩
      intro y hy
      exact habove y (skipResults_subset ts q y hy)

/-- Witness for claim C5 at a concrete cursor and target sequence. -/
theorem skip_next_monotone_results_witness :
    List.Pairwise (· < ·) (SegmentPostings.skipResults cursorEx [2, 2, 6]) :=
  skip_next_monotone_results cursorEx [2, 2, 6] (by decide)

/-- Claim C4: for every postings cursor and every target, skip_next
discards exactly the remaining ids strictly below the target and returns
the first remaining id at or above it, or None when no remaining id
reaches the target.  The claim states this for cursors over ascending
lists; it holds for every cursor. -/
theorem skip_next_first_geq_target (p : SegmentPostings) (target : Nat) :
    (p.skip_next target).1 = p.rest.find? (fun x => decide (target ≤ x)) ∧
    (∀ v q, p.skip_next target = (some v, q) →
      target ≤ v ∧ ∃ pre, p.rest = pre ++ v :: q.rest ∧ ∀ x ∈ pre, x < target) ∧
    ((p.skip_next target).1 = none ↔ ∀ x ∈ p.rest, x < target) := by
  obtain ⟨h1, _, _⟩ := skip_next_sim p target
  refine ⟨?_, ?_, ?_⟩
  · rw [h1, skipList_fst]
  · intro v q hvq
    exact skip_next_some_decomp p target v q hvq
  · rw [h1, skipList_fst, List.find?_eq_none]
    constructor
    · intro hall x hx
      have := hall x hx
      simp only [decide_eq_true_eq] at this
      omega
    · intro hall x hx
      have := hall x hx
      simp only [decide_eq_true_eq]
      omega

/-- sumLen distributes over append. -/
theorem sumLen_append : ∀ (a b : List (List Nat)), sumLen (a ++ b) = sumLen a + sumLen b := by
  intro a b
  induction a with
  | nil => simp [sumLen]
  | cons l ls ih => simp [sumLen, ih]; omega

/-- A successful skipList consumes at least the returned element. -/
theorem skipList_some_length (target : Nat) (l : List Nat) (v : Nat) (l' : List Nat)
    (h : skipList target l = (some v, l')) : l'.length < l.length := by
  obtain ⟨_, pre, hpre, _⟩ := skipList_some_decomp target l v l' h
  rw [hpre]
  simp [List.length_append]
  omega

/-- On a strictly increasing list, skipList returns a member, its suffix is
exactly the members above the answer, and the answer is least among members
reaching the target. -/
theorem skipList_some_sorted (target : Nat) (l : List Nat) (v : Nat) (l' : List Nat)
    (hl : List.Pairwise (· < ·) l) (h : skipList target l = (some v, l')) :
    v ∈ l ∧ List.Pairwise (· < ·) l' ∧ (∀ x ∈ l', v < x) ∧
    (∀ x, x ∈ l' ↔ x ∈ l ∧ v < x) ∧ (∀ x ∈ l, target ≤ x → v ≤ x) := by
  obtain ⟨ht, pre, hpre, hlt⟩ := skipList_some_decomp target l v l' h
  subst hpre
  have hmem : v ∈ pre ++ v :: l' := List.mem_append_right _ (List.mem_cons_self _ _)
  obtain ⟨hsuf, habove⟩ := pairwise_suffix_of_append_cons hl
  have hcross := (List.pairwise_append.mp hl).2.2
  refine ⟨hmem, hsuf, habove, ?_, ?_⟩
  · intro x
    constructor
    · intro hx
      exact ⟨List.mem_append_right _ (List.mem_cons_of_mem _ hx), habove x hx⟩
    · rintro ⟨hx, hvx⟩
      rcases List.mem_append.mp hx with hx | hx
      · have hxv := hcross x hx v (List.mem_cons_self _ _)
        exact absurd hvx (by omega)
      · rcases List.mem_cons.mp hx with rfl | hx
        · exact absurd hvx (lt_irrefl _)
        · exact hx
  · intro x hx htx
    rcases List.mem_append.mp hx with hx | hx
    · have := hlt x hx
      omega
    · rcases List.mem_cons.mp hx with rfl | hx
      · exact le_refl _
      · have := habove x hx
        omega

/-- The merge-loop contract is stable under replacing the loop state by one
with the same candidate set and no larger total length. -/
theorem loopStep_transfer {c c' : Nat} {agreed pending agreed' pending' : List (List Nat)}
    {res : Option (Nat × List (List Nat))}
    (hset : ∀ x, mergeCand c' agreed' pending' x ↔ mergeCand c agreed pending x)
    (hsum : sumLen agreed' + sumLen pending' ≤ sumLen agreed + sumLen pending)
    (h : (res = none → ∀ x, ¬ mergeCand c' agreed' pending' x) ∧
      (∀ v cs, res = some (v, cs) →
        mergeCand c' agreed' pending' v ∧
        (∀ x, mergeCand c' agreed' pending' x → v ≤ x) ∧
        cs ≠ [] ∧
        (∀ l ∈ cs, List.Pairwise (· < ·) l) ∧
        (∀ l ∈ cs, ∀ x ∈ l, v < x) ∧
        (∀ x, (∀ l ∈ cs, x ∈ l) ↔ (mergeCand c' agreed' pending' x ∧ v < x)) ∧
        sumLen cs ≤ sumLen agreed' + sumLen pending')) :
    (res = none → ∀ x, ¬ mergeCand c agreed pending x) ∧
    (∀ v cs, res = some (v, cs) →
      mergeCand c agreed pending v ∧
      (∀ x, mergeCand c agreed pending x → v ≤ x) ∧
      cs ≠ [] ∧
      (∀ l ∈ cs, List.Pairwise (· < ·) l) ∧
      (∀ l ∈ cs, ∀ x ∈ l, v < x) ∧
      (∀ x, (∀ l ∈ cs, x ∈ l) ↔ (mergeCand c agreed pending x ∧ v < x)) ∧
      sumLen cs ≤ sumLen agreed + sumLen pending) := by
  constructor
  · intro hres x hx
    exact h.1 hres x ((hset x).mpr hx)
  · intro v cs hres
    obtain ⟨h1, h2, h3, h4, h5, h6, h7⟩ := h.2 v cs hres
    refine ⟨(hset v).mp h1, ?_, h3, h4, h5, ?_, by omega⟩
    · intro x hx
      exact h2 x ((hset x).mpr hx)
    · intro x
      rw [h6 x]
      constructor
      · rintro ⟨hm, hw⟩
        exact ⟨(hset x).mp hm, hw⟩
      · rintro ⟨hm, hw⟩
        exact ⟨(hset x).mpr hm, hw⟩

/-- Contract of the merge loop: with adequate fuel, strictly increasing
cursors, a nonempty agreed side whose members all exceed the candidate,
loopStep either reports an empty candidate set (None) or returns the least
member of the candidate set together with cursors whose common members are
exactly the candidate-set members above the returned id. -/
theorem loopStep_spec :
    ∀ (fuel c : Nat) (agreed pending : List (List Nat)),
      sumLen agreed + sumLen pending < fuel →
      (∀ l ∈ agreed, List.Pairwise (· < ·) l) →
      (∀ l ∈ pending, List.Pairwise (· < ·) l) →
      (∀ a ∈ agreed, ∀ x ∈ a, c < x) →
      agreed ≠ [] →
      (loopStep fuel c agreed pending = none → ∀ x, ¬ mergeCand c agreed pending x) ∧
      (∀ v cs, loopStep fuel c agreed pending = some (v, cs) →
        mergeCand c agreed pending v ∧
        (∀ x, mergeCand c agreed pending x → v ≤ x) ∧
        cs ≠ [] ∧
        (∀ l ∈ cs, List.Pairwise (· < ·) l) ∧
        (∀ l ∈ cs, ∀ x ∈ l, v < x) ∧
        (∀ x, (∀ l ∈ cs, x ∈ l) ↔ (mergeCand c agreed pending x ∧ v < x)) ∧
        sumLen cs ≤ sumLen agreed + sumLen pending) := by
  intro fuel
  induction fuel with
  | zero =>
    intro c agreed pending hf _ _ _ _
    exact absurd hf (Nat.not_lt_zero _)
  | succ fuel ih =>
    intro c agreed pending hf hsA hsP ha hne
    cases pending with
    | nil =>
      constructor
      · intro h
        simp [loopStep] at h
      · intro v cs h
        simp only [loopStep, Option.some.injEq, Prod.mk.injEq] at h
        obtain ⟨rfl, rfl⟩ := h
        refine ⟨⟨le_refl c, Or.inl rfl, by simp⟩, ?_, hne, hsA, ha, ?_, by simp [sumLen]⟩
        · intro x hx
          exact hx.1
        · intro x
          constructor
          · intro hall
            obtain ⟨a, hamem⟩ := List.exists_mem_of_ne_nil agreed hne
            have hcx := ha a hamem x (hall a hamem)
            exact ⟨⟨by omega, Or.inr hall, by simp⟩, hcx⟩
          · rintro ⟨⟨_, hor, _⟩, hcx⟩
            intro l hl
            rcases hor with rfl | hall
            · exact absurd hcx (lt_irrefl _)
            · exact hall l hl
    | cons p ps =>
      rcases hsk : skipList c p with ⟨o, p'⟩
      cases o with
      | none =>
        have hred : loopStep (fuel + 1) c agreed (p :: ps) = none := by
          simp only [loopStep, hsk]
        rw [hred]
        constructor
        · intro _ x hx
          obtain ⟨hall, _⟩ := skipList_none c p p' hsk
          have hxp := hx.2.2 p (List.mem_cons_self _ _)
          have h1 := hall x hxp
          have h2 := hx.1
          omega
        · intro v cs h
          exact absurd h (by simp)
      | some v =>
        have hsorted_p := hsP p (List.mem_cons_self _ _)
        obtain ⟨hvp, hsuf, habove, hiff, hmin⟩ := skipList_some_sorted c p v p' hsorted_p hsk
        have hcv : c ≤ v := (skipList_some_decomp c p v p' hsk).1
        have hlen := skipList_some_length c p v p' hsk
        by_cases hvc : v = c
        · subst hvc
          have hred : loopStep (fuel + 1) v agreed (p :: ps) = loopStep fuel v (agreed ++ [p']) ps := by
            simp [loopStep, hsk]
          have hf' : sumLen (agreed ++ [p']) + sumLen ps < fuel := by
            rw [sumLen_append]
            simp only [sumLen] at hf ⊢
            omega
          have hsA' : ∀ l ∈ agreed ++ [p'], List.Pairwise (· < ·) l := by
            intro l hl
            rcases List.mem_append.mp hl with hl | hl
            · exact hsA l hl
            · simp only [List.mem_singleton] at hl
              subst hl
              exact hsuf
          have hsP' : ∀ l ∈ ps, List.Pairwise (· < ·) l :=
            fun l hl => hsP l (List.mem_cons_of_mem _ hl)
          have ha' : ∀ a ∈ agreed ++ [p'], ∀ x ∈ a, v < x := by
            intro a hamem x hx
            rcases List.mem_append.mp hamem with h' | h'
            · exact ha a h' x hx
            · simp only [List.mem_singleton] at h'
              subst h'
              exact habove x hx
          have hne' : agreed ++ [p'] ≠ [] := by simp
          have hIH := ih v (agreed ++ [p']) ps hf' hsA' hsP' ha' hne'
          have hset : ∀ x, mergeCand v (agreed ++ [p']) ps x ↔ mergeCand v agreed (p :: ps) x := by
            intro x
            constructor
            · rintro ⟨hcx, hor, hps⟩
              refine ⟨hcx, ?_, ?_⟩
              · rcases hor with rfl | hall
                · exact Or.inl rfl
                · exact Or.inr (fun a hamem => hall a (List.mem_append_left _ hamem))
              · intro q hq
                rcases List.mem_cons.mp hq with rfl | hq
                · rcases hor with rfl | hall
                  · exact hvp
                  · exact ((hiff x).mp (hall p' (List.mem_append_right _ (List.mem_cons_self _ _)))).1
                · exact hps q hq
            · rintro ⟨hcx, hor, hall⟩
              refine ⟨hcx, ?_, fun q hq => hall q (List.mem_cons_of_mem _ hq)⟩
              rcases hor with rfl | hagreed
              · exact Or.inl rfl
              · refine Or.inr ?_
                intro a hamem
                rcases List.mem_append.mp hamem with h' | h'
                · exact hagreed a h'
                · simp only [List.mem_singleton] at h'
                  subst h'
                  obtain ⟨a0, ha0⟩ := List.exists_mem_of_ne_nil agreed hne
                  have hvx : v < x := ha a0 ha0 x (hagreed a0 ha0)
                  exact (hiff x).mpr ⟨hall p (List.mem_cons_self _ _), hvx⟩
          have hsum : sumLen (agreed ++ [p']) + sumLen ps ≤ sumLen agreed + sumLen (p :: ps) := by
            rw [sumLen_append]
            simp only [sumLen]
            omega
          rw [hred]
          exact loopStep_transfer hset hsum hIH
        · have hcv' : c < v := by omega
          have hred : loopStep (fuel + 1) c agreed (p :: ps) = loopStep fuel v [p'] (agreed ++ ps) := by
            simp only [loopStep, hsk, if_neg hvc]
          have hf' : sumLen [p'] + sumLen (agreed ++ ps) < fuel := by
            rw [sumLen_append]
            simp only [sumLen] at hf ⊢
            omega
          have hsA' : ∀ l ∈ [p'], List.Pairwise (· < ·) l := by
            intro l hl
            simp only [List.mem_singleton] at hl
            subst hl
            exact hsuf
          have hsP' : ∀ l ∈ agreed ++ ps, List.Pairwise (· < ·) l := by
            intro l hl
            rcases List.mem_append.mp hl with hl | hl
            · exact hsA l hl
            · exact hsP l (List.mem_cons_of_mem _ hl)
          have ha' : ∀ a ∈ [p'], ∀ x ∈ a, v < x := by
            intro a hamem x hx
            simp only [List.mem_singleton] at hamem
            subst hamem
            exact habove x hx
          have hne' : ([p'] : List (List Nat)) ≠ [] := by simp
          have hIH := ih v [p'] (agreed ++ ps) hf' hsA' hsP' ha' hne'
          have hcnotp : c ∉ p := by
            intro hc
            have := hmin c hc (le_refl c)
            omega
          have hset : ∀ x, mergeCand v [p'] (agreed ++ ps) x ↔ mergeCand c agreed (p :: ps) x := by
            intro x
            constructor
            · rintro ⟨hvx, hor, hall⟩
              refine ⟨by omega, ?_, ?_⟩
              · refine Or.inr ?_
                intro a hamem
                exact hall a (List.mem_append_left _ hamem)
              · intro q hq
                rcases List.mem_cons.mp hq with rfl | hq
                · rcases hor with rfl | hx'
                  · exact hvp
                  · exact ((hiff x).mp (hx' p' (List.mem_cons_self _ _))).1
                · exact hall q (List.mem_append_right _ hq)
            · rintro ⟨hcx, hor, hall⟩
              have hxp : x ∈ p := hall p (List.mem_cons_self _ _)
              have hvx : v ≤ x := hmin x hxp hcx
              refine ⟨hvx, ?_, ?_⟩
              · by_cases hxv : x = v
                · exact Or.inl hxv
                · refine Or.inr ?_
                  intro a hamem
                  simp only [List.mem_singleton] at hamem
                  subst hamem
                  exact (hiff x).mpr ⟨hxp, by omega⟩
              · intro q hq
                rcases List.mem_append.mp hq with hq | hq
                · rcases hor with rfl | hx'
                  · exact absurd hxp hcnotp
                  · exact hx' q hq
                · exact hall q (List.mem_cons_of_mem _ hq)
          have hsum : sumLen [p'] + sumLen (agreed ++ ps) ≤ sumLen agreed + sumLen (p :: ps) := by
            rw [sumLen_append]
            simp only [sumLen]
            omega
          rw [hred]
          exact loopStep_transfer hset hsum hIH

/-- Contract of one merge emission: on strictly increasing cursors, an
emitted id is the least common member, and the advanced cursors' common
members are exactly the common members above it; None means no common
member exists. -/
theorem interNext_spec (ls : List (List Nat)) (hs : ∀ l ∈ ls, List.Pairwise (· < ·) l)
    (hne : ls ≠ []) :
    (interNext ls = none → ∀ x, ¬ ∀ l ∈ ls, x ∈ l) ∧
    (∀ v cs, interNext ls = some (v, cs) →
      (∀ l ∈ ls, v ∈ l) ∧
      (∀ x, (∀ l ∈ ls, x ∈ l) → v ≤ x) ∧
      cs ≠ [] ∧
      (∀ l ∈ cs, List.Pairwise (· < ·) l) ∧
      (∀ x, (∀ l ∈ cs, x ∈ l) ↔ ((∀ l ∈ ls, x ∈ l) ∧ v < x)) ∧
      sumLen cs < sumLen ls) := by
  cases ls with
  | nil => exact absurd rfl hne
  | cons l ps =>
    cases l with
    | nil =>
      constructor
      · intro _ x hx
        have := hx [] (List.mem_cons_self _ _)
        simp at this
      · intro v cs h
        simp [interNext] at h
    | cons x0 l =>
      have hfirst := hs (x0 :: l) (List.mem_cons_self _ _)
      have hl : List.Pairwise (· < ·) l := (List.pairwise_cons.mp hfirst).2
      have hx0 : ∀ y ∈ l, x0 < y := (List.pairwise_cons.mp hfirst).1
      have hspec := loopStep_spec (sumLen ((x0 :: l) :: ps) + 1) x0 [l] ps
        (by simp [sumLen]; omega)
        (by intro a hamem; simp only [List.mem_singleton] at hamem; subst hamem; exact hl)
        (fun q hq => hs q (List.mem_cons_of_mem _ hq))
        (by intro a hamem y hy; simp only [List.mem_singleton] at hamem; subst hamem
            exact hx0 y hy)
        (by simp)
      have hset : ∀ y, mergeCand x0 [l] ps y ↔ ∀ m ∈ (x0 :: l) :: ps, y ∈ m := by
        intro y
        constructor
        · rintro ⟨hxy, hor, hps⟩
          intro m hm
          rcases List.mem_cons.mp hm with rfl | hm
          · rcases hor with rfl | hall
            · exact List.mem_cons_self _ _
            · exact List.mem_cons_of_mem _ (hall l (List.mem_singleton.mpr rfl))
          · exact hps m hm
        · intro hall
          have hyfirst := hall (x0 :: l) (List.mem_cons_self _ _)
          rcases List.mem_cons.mp hyfirst with rfl | hyl
          · exact ⟨le_refl _, Or.inl rfl, fun q hq => hall q (List.mem_cons_of_mem _ hq)⟩
          · refine ⟨le_of_lt (hx0 y hyl), Or.inr ?_, fun q hq => hall q (List.mem_cons_of_mem _ hq)⟩
            intro a hamem
            simp only [List.mem_singleton] at hamem
            subst hamem
            exact hyl
      have hredN : interNext ((x0 :: l) :: ps) = loopStep (sumLen ((x0 :: l) :: ps) + 1) x0 [l] ps := rfl
      constructor
      · intro h y hy
        rw [hredN] at h
        exact hspec.1 h y ((hset y).mpr hy)
      · intro v cs h
        rw [hredN] at h
        obtain ⟨h1, h2, h3, h4, _, h6, h7⟩ := hspec.2 v cs h
        refine ⟨(hset v).mp h1, ?_, h3, h4, ?_, ?_⟩
        · intro y hy
          exact h2 y ((hset y).mpr hy)
        · intro y
          rw [h6 y]
          constructor
          · rintro ⟨hm, hv⟩
            exact ⟨(hset y).mp hm, hv⟩
          · rintro ⟨hm, hv⟩
            exact ⟨(hset y).mpr hm, hv⟩
        · simp only [sumLen] at h7 ⊢
          simp only [List.length_cons]
          omega

/-- Contract of the full merge: with adequate fuel, on a nonempty family of
strictly increasing cursors, interRun produces a strictly increasing
sequence whose members are exactly the ids common to every cursor. -/
theorem interRun_spec :
    ∀ (fuel : Nat) (ls : List (List Nat)),
      sumLen ls < fuel →
      (∀ l ∈ ls, List.Pairwise (· < ·) l) →
      ls ≠ [] →
      List.Pairwise (· < ·) (interRun fuel ls) ∧
      (∀ x, x ∈ interRun fuel ls ↔ ∀ l ∈ ls, x ∈ l) := by
  intro fuel
  induction fuel with
  | zero =>
    intro ls hf _ _
    exact absurd hf (Nat.not_lt_zero _)
  | succ fuel ih =>
    intro ls hf hs hne
    rcases hNext : interNext ls with _ | ⟨v, cs⟩
    · have hrun : interRun (fuel + 1) ls = [] := by simp [interRun, hNext]
      rw [hrun]
      refine ⟨List.Pairwise.nil, ?_⟩
      intro x
      simp only [List.not_mem_nil, false_iff]
      intro hx
      exact (interNext_spec ls hs hne).1 hNext x hx
    · have hrun : interRun (fuel + 1) ls = v :: interRun fuel cs := by simp [interRun, hNext]
      obtain ⟨h1, h2, h3, h4, h6, h7⟩ := (interNext_spec ls hs hne).2 v cs hNext
      have hIH := ih cs (by omega) h4 h3
      rw [hrun]
      constructor
      · refine List.pairwise_cons.mpr ⟨?_, hIH.1⟩
        intro y hy
        have hall : ∀ l ∈ cs, y ∈ l := (hIH.2 y).mp hy
        exact ((h6 y).mp hall).2
      · intro x
        simp only [List.mem_cons]
        constructor
        · rintro (rfl | hx)
          · exact h1
          · exact ((h6 x).mp ((hIH.2 x).mp hx)).1
        · intro hx
          have hvx := h2 x hx
          by_cases hxv : x = v
          · exact Or.inl hxv
          · refine Or.inr ?_
            rw [hIH.2 x]
            exact (h6 x).mpr ⟨hx, by omega⟩

/-- A cursor produced by from_data starts at position zero. -/
theorem from_data_doc_id (decoder : DecoderFn) (doc_freq : Nat) (data : List Nat)
    (p : SegmentPostings) (h : SegmentPostings.from_data decoder doc_freq data = Except.ok p) :
    p.doc_id = 0 := by
  unfold SegmentPostings.from_data at h
  rcases hdes : deserializeVecU32 data with _ | arr
  · rw [hdes] at h
    simp at h
  · rw [hdes] at h
    simp only [Except.ok.injEq] at h
    rw [← h]

/-- A cursor produced by read_postings starts at position zero. -/
theorem read_postings_ok_doc_id (decoder : DecoderFn) (r : SegmentReader) (ti : TermInfo)
    (p : SegmentPostings) (h : SegmentReader.read_postings decoder r ti = Except.ok p) :
    p.doc_id = 0 := by
  simp only [SegmentReader.read_postings] at h
  split at h
  · exact from_data_doc_id _ _ _ _ h
  · simp at h

/-- termCursor succeeds exactly when the term is in the dictionary and its
postings decode without a panic. -/
theorem termCursor_eq_some (decoder : DecoderFn) (r : SegmentReader) (t : Term)
    (p : SegmentPostings) :
    SegmentReader.termCursor decoder r t = some p ↔
    ∃ ti, r.get_term t = some ti ∧ SegmentReader.read_postings decoder r ti = Except.ok p := by
  rcases hg : r.get_term t with _ | ti
  · have hred : SegmentReader.termCursor decoder r t = none := by
      unfold SegmentReader.termCursor
      rw [hg]
    rw [hred]
    simp [hg]
  · have hred : SegmentReader.termCursor decoder r t =
        (SegmentReader.read_postings decoder r ti).toOption := by
      unfold SegmentReader.termCursor
      rw [hg]
    rw [hred]
    constructor
    · intro h
      refine ⟨ti, rfl, ?_⟩
      rcases hr : SegmentReader.read_postings decoder r ti with e | q
      · rw [hr] at h
        simp [Except.toOption] at h
      · rw [hr] at h
        simp only [Except.toOption, Option.some.injEq] at h
        rw [h]
    · rintro ⟨ti', hti, hr⟩
      obtain rfl : ti = ti' := by injection hti
      rw [hr]
      rfl

/-- When every queried term resolves to a cursor, the search loop pushes
exactly those cursors in order and looks up exactly the queried terms. -/
theorem searchLoop_present (decoder : DecoderFn) (r : SegmentReader) :
    ∀ (todo : List Term) (acc : List SegmentPostings) (seen : List Term),
      (∀ t ∈ todo, ∃ p, SegmentReader.termCursor decoder r t = some p) →
      SegmentReader.searchLoop decoder r todo acc seen =
        (Except.ok (acc ++ todo.map (termCursorOrEmpty decoder r)), seen ++ todo) := by
  intro todo
  induction todo with
  | nil =>
    intro acc seen _
    simp [SegmentReader.searchLoop]
  | cons t ts ih =>
    intro acc seen hall
    obtain ⟨p, hp⟩ := hall t (List.mem_cons_self _ _)
    obtain ⟨ti, hti, hread⟩ := (termCursor_eq_some decoder r t p).mp hp
    have hstep : SegmentReader.searchLoop decoder r (t :: ts) acc seen =
        SegmentReader.searchLoop decoder r ts (acc ++ [p]) (seen ++ [t]) := by
      simp only [SegmentReader.searchLoop, hti, hread]
    rw [hstep, ih (acc ++ [p]) (seen ++ [t]) (fun q hq => hall q (List.mem_cons_of_mem _ hq))]
    have hfp : termCursorOrEmpty decoder r t = p := by
      unfold termCursorOrEmpty
      rw [hp]
      rfl
    simp [hfp, List.append_assoc]

/-- Reaching the first missing term clears the accumulated cursors, pushes a
single empty cursor, and stops before looking up any later term. -/
theorem searchLoop_miss (decoder : DecoderFn) (r : SegmentReader) :
    ∀ (pre : List Term) (t : Term) (post : List Term) (acc : List SegmentPostings)
      (seen : List Term),
      (∀ u ∈ pre, ∃ p, SegmentReader.termCursor decoder r u = some p) →
      r.get_term t = none →
      SegmentReader.searchLoop decoder r (pre ++ t :: post) acc seen =
        (Except.ok [SegmentPostings.empty], seen ++ pre ++ [t]) := by
  intro pre
  induction pre with
  | nil =>
    intro t post acc seen _ hmiss
    simp only [List.nil_append, SegmentReader.searchLoop, hmiss]
    simp
  | cons u us ih =>
    intro t post acc seen hall hmiss
    obtain ⟨p, hp⟩ := hall u (List.mem_cons_self _ _)
    obtain ⟨ti, hti, hread⟩ := (termCursor_eq_some decoder r u p).mp hp
    have hstep : SegmentReader.searchLoop decoder r (u :: (us ++ t :: post)) acc seen =
        SegmentReader.searchLoop decoder r (us ++ t :: post) (acc ++ [p]) (seen ++ [u]) := by
      simp only [SegmentReader.searchLoop, hti, hread]
    rw [List.cons_append, hstep,
      ih t post (acc ++ [p]) (seen ++ [u]) (fun q hq => hall q (List.mem_cons_of_mem _ hq)) hmiss]
    simp [List.append_assoc]

/-- Claim C2: when the query contains a term absent from the dictionary,
search looks up only the terms through the first missing one (no lookup for
the later terms), replaces the accumulated cursors by a single empty
cursor, and the intersection it returns is the empty sequence whatever the
other terms are.  The terms before the miss must be present and decodable,
otherwise the loop would have ended earlier. -/
theorem search_missing_term_short_circuit (decoder : DecoderFn) (r : SegmentReader)
    (pre : List Term) (t : Term) (post : List Term)
    (hpre : ∀ u ∈ pre, ∃ p, SegmentReader.termCursor decoder r u = some p)
    (hmiss : r.get_term t = none) :
    SegmentReader.search decoder r (pre ++ t :: post) =
      Except.ok (IntersectionPostings.from_postings [SegmentPostings.empty]) ∧
    SegmentReader.searchTrace decoder r (pre ++ t :: post) = pre ++ [t] ∧
    SegmentReader.searchDocs decoder r (pre ++ t :: post) = Except.ok [] := by
  have h := searchLoop_miss decoder r pre t post [] [] hpre hmiss
  refine ⟨?_, ?_, ?_⟩
  · unfold SegmentReader.search
    rw [h]
    rfl
  · unfold SegmentReader.searchTrace
    rw [h]
    simp
  · unfold SegmentReader.searchDocs SegmentReader.search
    rw [h]
    rfl

/-- Witness for claim C2: term [2] is absent from the witness dictionary;
only [[0], [2]] are looked up and the result is empty despite [1] having a
nonempty posting list. -/
theorem search_missing_term_short_circuit_witness :
    SegmentReader.search decoderEx readerEx [[0], [2], [1]] =
      Except.ok (IntersectionPostings.from_postings [SegmentPostings.empty]) ∧
    SegmentReader.searchTrace decoderEx readerEx [[0], [2], [1]] = [[0], [2]] ∧
    SegmentReader.searchDocs decoderEx readerEx [[0], [2], [1]] = Except.ok [] :=
  search_missing_term_short_circuit decoderEx readerEx [[0]] [2] [[1]]
    (by
      intro u hu
      simp only [List.mem_singleton] at hu
      subst hu
      exact ⟨{ doc_id := 0, doc_ids := [0, 2, 4] }, rfl⟩)
    rfl

/-- Claim C3: searching with zero query terms is defined behaviour and
yields the empty result sequence. -/
theorem search_no_terms_empty (decoder : DecoderFn) (r : SegmentReader) :
    SegmentReader.search decoder r [] = Except.ok (IntersectionPostings.from_postings []) ∧
    SegmentReader.searchDocs decoder r [] = Except.ok [] :=
  ⟨rfl, rfl⟩

/-- On the all-present path, each built cursor starts at position zero over
its term's posting list, which is g t below. -/
theorem termCursorOrEmpty_rest (decoder : DecoderFn) (r : SegmentReader) (t : Term)
    (p : SegmentPostings) (hp : SegmentReader.termCursor decoder r t = some p) :
    (termCursorOrEmpty decoder r t).rest = postingListOrNil decoder r t ∧
    SegmentReader.postingList decoder r t = some p.doc_ids := by
  obtain ⟨ti, hti, hread⟩ := (termCursor_eq_some decoder r t p).mp hp
  have hdoc := read_postings_ok_doc_id decoder r ti p hread
  have hrest : p.rest = p.doc_ids := by
    unfold SegmentPostings.rest
    rw [hdoc]
    exact List.drop_zero _
  have hpl : SegmentReader.postingList decoder r t = some p.doc_ids := by
    unfold SegmentReader.postingList
    rw [hp]
    rfl
  refine ⟨?_, hpl⟩
  unfold termCursorOrEmpty postingListOrNil
  rw [hp, hpl]
  simpa using hrest

/-- Claim C1: for a query whose terms are all present in the dictionary
(with decodable, strictly increasing posting lists, which is the stated
segment invariant), search produces exactly the mathematical intersection
of the terms' posting lists, in strictly ascending order and
duplicate-free. -/
theorem search_intersection_correct (decoder : DecoderFn) (r : SegmentReader)
    (terms : List Term) (hne : terms ≠ [])
    (hall : ∀ t ∈ terms, ∃ l, SegmentReader.postingList decoder r t = some l ∧
      List.Pairwise (· < ·) l) :
    ∃ res, SegmentReader.searchDocs decoder r terms = Except.ok res ∧
      List.Pairwise (· < ·) res ∧ res.Nodup ∧
      (∀ x, x ∈ res ↔
        ∀ t ∈ terms, ∃ l, SegmentReader.postingList decoder r t = some l ∧ x ∈ l) := by
  have hcur : ∀ t ∈ terms, ∃ p, SegmentReader.termCursor decoder r t = some p := by
    intro t ht
    obtain ⟨l, hl, _⟩ := hall t ht
    unfold SegmentReader.postingList at hl
    rcases hc : SegmentReader.termCursor decoder r t with _ | p
    · rw [hc] at hl
      simp at hl
    · exact ⟨p, rfl⟩
  have hloop := searchLoop_present decoder r terms [] [] hcur
  have hsearch : SegmentReader.search decoder r terms =
      Except.ok (IntersectionPostings.from_postings
        (terms.map (termCursorOrEmpty decoder r))) := by
    unfold SegmentReader.search
    rw [hloop]
    rfl
  have hviews_eq : (terms.map (termCursorOrEmpty decoder r)).map SegmentPostings.rest =
      terms.map (postingListOrNil decoder r) := by
    rw [List.map_map]
    apply List.map_congr_left
    intro t ht
    obtain ⟨p, hp⟩ := hcur t ht
    exact (termCursorOrEmpty_rest decoder r t p hp).1
  have hg : ∀ t ∈ terms, ∀ l, SegmentReader.postingList decoder r t = some l →
      postingListOrNil decoder r t = l := by
    intro t _ l hl
    unfold postingListOrNil
    rw [hl]
    rfl
  have hpair : ∀ l ∈ terms.map (postingListOrNil decoder r), List.Pairwise (· < ·) l := by
    intro l hl
    obtain ⟨t, ht, rfl⟩ := List.mem_map.mp hl
    obtain ⟨l', hl', hsort⟩ := hall t ht
    rw [hg t ht l' hl']
    exact hsort
  have hne' : terms.map (postingListOrNil decoder r) ≠ [] := by
    intro hcontra
    exact hne (List.map_eq_nil_iff.mp hcontra)
  have hspec := interRun_spec (sumLen (terms.map (postingListOrNil decoder r)) + 1)
    (terms.map (postingListOrNil decoder r)) (Nat.lt_succ_self _) hpair hne'
  refine ⟨interRun (sumLen (terms.map (postingListOrNil decoder r)) + 1)
      (terms.map (postingListOrNil decoder r)), ?_, hspec.1, ?_, ?_⟩
  · unfold SegmentReader.searchDocs
    rw [hsearch]
    show Except.ok (IntersectionPostings.docs
      (IntersectionPostings.from_postings (terms.map (termCursorOrEmpty decoder r)))) = _
    unfold IntersectionPostings.docs IntersectionPostings.from_postings
    rw [hviews_eq]
  · exact List.Pairwise.imp (fun h => Nat.ne_of_lt h) hspec.1
  · intro x
    rw [hspec.2 x]
    constructor
    · intro hmem t ht
      obtain ⟨l, hl, hsort⟩ := hall t ht
      refine ⟨l, hl, ?_⟩
      have hx := hmem (postingListOrNil decoder r t) (List.mem_map_of_mem _ ht)
      rw [hg t ht l hl] at hx
      exact hx
    · intro hforall l hl
      obtain ⟨t, ht, rfl⟩ := List.mem_map.mp hl
      obtain ⟨l', hl', hx⟩ := hforall t ht
      rw [hg t ht l' hl']
      exact hx

/-- Witness for claim C1, the spec's concrete scenario: term [0] has
postings [0, 2, 4], term [1] has [2, 4]; searching both yields their
intersection. -/
theorem search_intersection_correct_witness :
    ∃ res, SegmentReader.searchDocs decoderEx readerEx [[0], [1]] = Except.ok res ∧
      List.Pairwise (· < ·) res ∧ res.Nodup ∧
      (∀ x, x ∈ res ↔
        ∀ t ∈ [[0], [1]], ∃ l, SegmentReader.postingList decoderEx readerEx t = some l ∧
          x ∈ l) :=
  search_intersection_correct decoderEx readerEx [[0], [1]] (by decide)
    (by
      intro t ht
      rcases List.mem_cons.mp ht with rfl | ht
      · exact ⟨[0, 2, 4], rfl, by decide⟩
      · rcases List.mem_cons.mp ht with rfl | ht
        · exact ⟨[2, 4], rfl, by decide⟩
        · simp at ht)

/-- Claim C6: from_data hands the decoder a scratch buffer of length
exactly doc_freq (List.range doc_freq), truncates the written buffer to the
count the decoder returns — at most doc_freq, and in-place writing keeps
the buffer length, both spec-stated decoder properties taken as
hypotheses — and the resulting cursor iterates exactly that many ids; a
zero doc_freq yields the empty sequence (the final conjunct holds by the
truncation alone, whatever count the decoder returned). -/
theorem from_data_buffer_truncate (decoder : DecoderFn) (doc_freq : Nat)
    (data arr buf : List Nat) (num : Nat)
    (hdes : deserializeVecU32 data = some arr)
    (hdec : decoder arr (List.range doc_freq) = (num, buf))
    (hlen : buf.length = doc_freq)
    (hnum : num ≤ doc_freq) :
    (List.range doc_freq).length = doc_freq ∧
    ∃ p, SegmentPostings.from_data decoder doc_freq data = Except.ok p ∧
      p.doc_ids = buf.take num ∧
      p.doc_ids.length = num ∧
      p.doc_id = 0 ∧
      p.rest = p.doc_ids ∧
      (doc_freq = 0 → p.rest = []) := by
  have hmain : SegmentPostings.from_data decoder doc_freq data =
      Except.ok { doc_id := 0, doc_ids := buf.take num } := by
    unfold SegmentPostings.from_data
    rw [hdes]
    simp only [hdec]
  refine ⟨List.length_range doc_freq, { doc_id := 0, doc_ids := buf.take num }, hmain,
    rfl, ?_, rfl, ?_, ?_⟩
  · simp only [List.length_take, hlen]
    omega
  · unfold SegmentPostings.rest
    exact List.drop_zero _
  · intro hzero
    unfold SegmentPostings.rest
    subst hzero
    have : num = 0 := by omega
    subst this
    simp

/-- Witness for claim C6 at the serialized list [0, 2, 4] with
doc_freq 3. -/
theorem from_data_buffer_truncate_witness :
    (List.range 3).length = 3 ∧
    ∃ p, SegmentPostings.from_data decoderEx 3 bytesA = Except.ok p ∧
      p.doc_ids = [0, 2, 4].take 3 ∧
      p.doc_ids.length = 3 ∧
      p.doc_id = 0 ∧
      p.rest = p.doc_ids ∧
      (3 = 0 → p.rest = []) :=
  from_data_buffer_truncate decoderEx 3 bytesA [0, 2, 4] [0, 2, 4] 3 rfl rfl rfl
    (by decide)

/-- Claim C7: a decode failure on a term's postings bytes at search time is
a hard failure that propagates to the caller (in the source an unwrap
panic — read_postings returns no Result, so the panic is the propagation
mechanism) and is never silently masked as a successful empty cursor. -/
theorem read_postings_decode_failure_propagates (decoder : DecoderFn) (r : SegmentReader)
    (ti : TermInfo)
    (hoff : ti.postings_offset ≤ r.postings_data.length)
    (hbad : deserializeVecU32 (r.postings_data.drop ti.postings_offset) = none) :
    SegmentReader.read_postings decoder r ti = Except.error unwrapFailMsg ∧
    ∀ p, SegmentReader.read_postings decoder r ti ≠ Except.ok p := by
  have h : SegmentReader.read_postings decoder r ti = Except.error unwrapFailMsg := by
    unfold SegmentReader.read_postings
    rw [if_pos hoff]
    unfold SegmentPostings.from_data
    rw [hbad]
  refine ⟨h, ?_⟩
  intro p hcontra
  rw [h] at hcontra
  exact Except.noConfusion hcontra

/-- Witness for claim C7: two garbage bytes cannot hold the length-prefixed
array, so reading postings at offset 0 of the garbage region panics. -/
theorem read_postings_decode_failure_propagates_witness :
    SegmentReader.read_postings decoderEx readerBad tiBad = Except.error unwrapFailMsg ∧
    ∀ p, SegmentReader.read_postings decoderEx readerBad tiBad ≠ Except.ok p :=
  read_postings_decode_failure_propagates decoderEx readerBad tiBad (by decide) rfl

/-- Claim C9: read_postings is a pure deterministic function of the term
info and the postings region: readers with equal postings bytes produce
identical cursors for equal TermInfo values, whatever else (dictionary,
store, info, id) differs.  The embedding is a pure function of an immutable
reader value, so the call cannot mutate the reader. -/
theorem read_postings_pure (decoder : DecoderFn) (r1 r2 : SegmentReader) (ti : TermInfo)
    (h : r1.postings_data = r2.postings_data) :
    SegmentReader.read_postings decoder r1 ti = SegmentReader.read_postings decoder r2 ti := by
  unfold SegmentReader.read_postings
  rw [h]

/-- Witness for claim C9: readerEx and readerEx2 share postings bytes but
differ in dictionary and id. -/
theorem read_postings_pure_witness :
    SegmentReader.read_postings decoderEx readerEx tiA =
      SegmentReader.read_postings decoderEx readerEx2 tiA :=
  read_postings_pure decoderEx readerEx readerEx2 tiA rfl

/-- Claim C10: read_postings slices the postings region with an unguarded
postings_data[offset..]: whenever the offset exceeds the region length the
call panics (out-of-bounds slice) instead of returning recoverable data,
and only under the precondition offset at most the length does it reach
the decoder. -/
theorem read_postings_offset_out_of_bounds_panics (decoder : DecoderFn) (r : SegmentReader)
    (ti : TermInfo) :
    (r.postings_data.length < ti.postings_offset →
      SegmentReader.read_postings decoder r ti = Except.error sliceOutOfBoundsMsg) ∧
    (ti.postings_offset ≤ r.postings_data.length →
      SegmentReader.read_postings decoder r ti =
        SegmentPostings.from_data decoder ti.doc_freq
          (r.postings_data.drop ti.postings_offset)) := by
  constructor
  · intro hgt
    unfold SegmentReader.read_postings
    rw [if_neg (by omega)]
  · intro hle
    unfold SegmentReader.read_postings
    rw [if_pos hle]

/-- Characterization of a successful open: every region read and every
decode step succeeded, and the reader is built from their results. -/
theorem openSegment_ok_iff (c : Collaborators) (seg : Segment) (r : SegmentReader) :
    SegmentReader.openSegment c seg = Except.ok r ↔
    ∃ ib si tb d sb pb fb fr,
      seg.info = some ib ∧ c.parseSegmentInfo ib = some si ∧
      seg.terms = some tb ∧ c.fstMapFromSource tb = some d ∧
      seg.store = some sb ∧ seg.postings = some pb ∧
      seg.fastfields = some fb ∧ c.fastFieldsOpen fb = some fr ∧
      r = { segment_info := si, segment_id := seg.segId, term_infos := d,
            postings_data := pb, store_reader := sb, fast_fields_reader := fr } := by
  unfold SegmentReader.openSegment
  rcases hi : seg.info with _ | ib
  · simp
  · rcases hpi : c.parseSegmentInfo ib with _ | si
    · simp [hpi]
    · rcases ht : seg.terms with _ | tb
      · simp [hpi]
      · rcases hft : c.fstMapFromSource tb with _ | d
        · simp [hpi, hft]
        · rcases hst : seg.store with _ | sb
          · simp [hpi, hft]
          · rcases hpo : seg.postings with _ | pb
            · simp [hpi, hft]
            · rcases hff : seg.fastfields with _ | fb
              · simp [hpi, hft]
              · rcases hffo : c.fastFieldsOpen fb with _ | fr
                · simp [hpi, hft, hffo]
                · simp only [hpi, hft, hffo]
                  constructor
                  · intro h
                    simp only [Except.ok.injEq] at h
                    exact ⟨ib, si, tb, d, sb, pb, fb, fr, rfl, hpi, rfl, hft, rfl, rfl,
                      rfl, hffo, h.symm⟩
                  · rintro ⟨ib', si', tb', d', sb', pb', fb', fr', hib, hsi, htb, hd,
                      hsb, hpb, hfb, hfr, hr⟩
                    obtain rfl : ib = ib' := by injection hib
                    obtain rfl : si = si' := by rw [hpi] at hsi; injection hsi
                    obtain rfl : tb = tb' := by injection htb
                    obtain rfl : d = d' := by rw [hft] at hd; injection hd
                    obtain rfl : sb = sb' := by injection hsb
                    obtain rfl : pb = pb' := by injection hpb
                    obtain rfl : fb = fb' := by injection hfb
                    obtain rfl : fr = fr' := by rw [hffo] at hfr; injection hfr
                    rw [hr]

/-- Claim C8: open succeeds exactly when all five regions are present and
well-formed (every fallible decode step succeeds); any failing read or
decode makes open return an error, and since the result type is a Result no
SegmentReader value exists in that case (no partial-open state); on success
the POSTINGS region is retained as raw bytes in the reader, undecoded, and
the parsed SegmentInfo and built dictionary are the ones the collaborators
produced. -/
theorem open_requires_all_regions (c : Collaborators) (seg : Segment) :
    ((∃ r, SegmentReader.openSegment c seg = Except.ok r) ↔ SegmentReader.openOk c seg) ∧
    (¬ SegmentReader.openOk c seg →
      ∃ e, SegmentReader.openSegment c seg = Except.error e) ∧
    (∀ r, SegmentReader.openSegment c seg = Except.ok r →
      seg.postings = some r.postings_data ∧
      (∀ ib si, seg.info = some ib → c.parseSegmentInfo ib = some si →
        r.segment_info = si) ∧
      (∀ tb d, seg.terms = some tb → c.fstMapFromSource tb = some d →
        r.term_infos = d)) := by
  have hfwd : ∀ r, SegmentReader.openSegment c seg = Except.ok r →
      SegmentReader.openOk c seg := by
    intro r hr
    obtain ⟨ib, si, tb, d, sb, pb, fb, fr, hib, hsi, htb, hd, hsb, hpb, hfb, hfr, _⟩ :=
      (openSegment_ok_iff c seg r).mp hr
    refine ⟨⟨ib, si, hib, hsi⟩, ⟨tb, d, htb, hd⟩, ?_, ?_, ⟨fb, fr, hfb, hfr⟩⟩
    · rw [hsb]; rfl
    · rw [hpb]; rfl
  refine ⟨⟨?_, ?_⟩, ?_, ?_⟩
  · rintro ⟨r, hr⟩
    exact hfwd r hr
  · rintro ⟨⟨ib, si, hib, hsi⟩, ⟨tb, d, htb, hd⟩, hsb, hpb, ⟨fb, fr, hfb, hfr⟩⟩
    obtain ⟨sb, hsb'⟩ := Option.isSome_iff_exists.mp hsb
    obtain ⟨pb, hpb'⟩ := Option.isSome_iff_exists.mp hpb
    refine ⟨{ segment_info := si
              segment_id := seg.segId
              term_infos := d
              postings_data := pb
              store_reader := sb
              fast_fields_reader := fr }, ?_⟩
    exact (openSegment_ok_iff c seg _).mpr
      ⟨ib, si, tb, d, sb, pb, fb, fr, hib, hsi, htb, hd, hsb', hpb', hfb, hfr, rfl⟩
  · intro hnot
    rcases hop : SegmentReader.openSegment c seg with e | r
    · exact ⟨e, rfl⟩
    · exact absurd (hfwd r hop) hnot
  · intro r hr
    obtain ⟨ib, si, tb, d, sb, pb, fb, fr, hib, hsi, htb, hd, hsb, hpb, hfb, hfr, hrec⟩ :=
      (openSegment_ok_iff c seg r).mp hr
    subst hrec
    refine ⟨hpb, ?_, ?_⟩
    · intro ib' si' hib' hsi'
      obtain rfl : ib = ib' := by rw [hib] at hib'; injection hib'
      rw [hsi] at hsi'
      exact Option.some.inj hsi'
    · intro tb' d' htb' hd'
      obtain rfl : tb = tb' := by rw [htb] at htb'; injection htb'
      rw [hd] at hd'
      exact Option.some.inj hd' 

/-- Witness for claim C8: the all-regions-present witness segment opens and
retains its postings bytes raw. -/
theorem open_requires_all_regions_witness :
    ∃ r, SegmentReader.openSegment collabEx segEx = Except.ok r :=
  (open_requires_all_regions collabEx segEx).1.mpr
    ⟨⟨[], { max_doc := 0 }, rfl, rfl⟩, ⟨[], [], rfl, rfl⟩, rfl, rfl, ⟨[], [], rfl, rfl⟩⟩

/-- Witness for claim C3 at the concrete witness reader. -/
theorem search_no_terms_empty_witness :
    SegmentReader.search decoderEx readerEx [] =
      Except.ok (IntersectionPostings.from_postings []) ∧
    SegmentReader.searchDocs decoderEx readerEx [] = Except.ok [] :=
  search_no_terms_empty decoderEx readerEx

/-- Witness for claim C4 at a concrete cursor and target. -/
theorem skip_next_first_geq_target_witness :
    (cursorEx.skip_next 2).1 = cursorEx.rest.find? (fun x => decide (2 ≤ x)) ∧
    (∀ v q, cursorEx.skip_next 2 = (some v, q) →
      2 ≤ v ∧ ∃ pre, cursorEx.rest = pre ++ v :: q.rest ∧ ∀ x ∈ pre, x < 2) ∧
    ((cursorEx.skip_next 2).1 = none ↔ ∀ x ∈ cursorEx.rest, x < 2) :=
  skip_next_first_geq_target cursorEx 2

/-- Witness for claim C10: offset 99 exceeds the two-byte witness region
and the call ends in the out-of-bounds panic. -/
theorem read_postings_offset_out_of_bounds_panics_witness :
    SegmentReader.read_postings decoderEx readerBad tiFar =
      Except.error sliceOutOfBoundsMsg :=
  (read_postings_offset_out_of_bounds_panics decoderEx readerBad tiFar).1 (by decide)
